import Mathlib

/-
Verification of the filematch directory-comparison core against its
natural-language specification.

The embedding below models the Rust sources shallowly:

* a filesystem path (PathBuf) is its list of components, each component an
  abstract atom (a natural number);
* a content digest (u64 from lib.rs, blake3::Hash from util.rs) is an abstract
  equality key, modelled as a natural number;
* std HashMap from a digest to a Vec of paths is modelled as an association
  list with one binding per key; HashMap iteration order is unspecified in
  Rust, so every theorem below that depends on it is stated up to
  permutation or quantifies over reorderings;
* file hashing (calculate_file_hash) is a parameter h : Path -> Option Digest,
  where none models an io::Error while opening or reading the file;
* the crossbeam select loop of a worker is modelled by the schedule of
  messages the worker actually receives: the messages processed before the
  worker observes a closed channel, which side closed first, and the
  messages it then drains from the still-open channel.
-/

namespace Filematch

/-- A filesystem path, as its list of components (abstract atoms). -/
abbrev Path : Type := List Nat

/-- An abstract content digest, used only as an equality key. -/
abbrev Digest : Type := Nat

/-- Model of std HashMap K (Vec V): an association list of bindings.
A real HashMap has at most one binding per key; theorems that need this
carry a Nodup hypothesis on the key list. -/
abbrev HMap (K V : Type) : Type := List (K × List V)

/-- The key list of a map (model of HashMap keys). -/
def HMap.keys {K V : Type} (m : HMap K V) : List K :=
  m.map Prod.fst

/-- Lookup of the value list bound to a key (model of HashMap get). -/
def HMap.get? {K V : Type} [DecidableEq K] (m : HMap K V) (k : K) : Option (List V) :=
  match m with
  | [] => none
  | (k0, vs) :: t => if k0 = k then some vs else HMap.get? t k

/-- Lookup with the empty list as default. -/
def HMap.getD {K V : Type} [DecidableEq K] (m : HMap K V) (k : K) : List V :=
  (HMap.get? m k).getD []

/-- Model of map.entry(k).or_default().push(v): append v to the list bound
to k, creating the binding when absent. -/
def HMap.insertPush {K V : Type} [DecidableEq K] (m : HMap K V) (k : K) (v : V) : HMap K V :=
  match m with
  | [] => [(k, [v])]
  | (k0, vs) :: t =>
    if k0 = k then (k0, vs ++ [v]) :: t else (k0, vs) :: HMap.insertPush t k v

/-- Model of combined.entry(k).or_default().extend(vs). -/
def HMap.extendEntry {K V : Type} [DecidableEq K] (m : HMap K V) (k : K) (vs : List V) : HMap K V :=
  match m with
  | [] => [(k, vs)]
  | (k0, vs0) :: t =>
    if k0 = k then (k0, vs0 ++ vs) :: t else (k0, vs0) :: HMap.extendEntry t k vs

/-- All values stored in a map, in binding order. -/
def HMap.values {K V : Type} (m : HMap K V) : List V :=
  m.flatMap Prod.snd

/-- The concatenation of the value lists of every binding at a key (equal to
the lookup when the key list has no duplicates). -/
def HMap.allAt {K V : Type} [DecidableEq K] (m : HMap K V) (k : K) : List V :=
  (m.filter (fun kv => decide (kv.1 = k))).flatMap Prod.snd

/-- Embedding of partition_map_values (src/compare_two_directories.rs lines
34-72): partitions the values of two maps into the values of keys present in
both maps, the values of keys only in map1, and the values of keys only in
map2; each of the three output slots is computed only when its flag is true
and is returned as none otherwise. -/
def partition_map_values {K V : Type} [DecidableEq K]
    (map1 map2 : HMap K V)
    (include_intersection include_unique_dir1 include_unique_dir2 : Bool) :
    Option (List V) × Option (List V) × Option (List V) :=
  let keys1 := HMap.keys map1
  let keys2 := HMap.keys map2
  let keys_intersection := keys1.filter (fun k => decide (k ∈ keys2))
  let intersection :=
    if include_intersection then
      some (keys_intersection.flatMap
        (fun k => HMap.getD map1 k ++ HMap.getD map2 k))
    else none
  let unique_dir1 :=
    if include_unique_dir1 then
      some ((map1.filter (fun kv => decide (kv.1 ∉ keys2))).flatMap Prod.snd)
    else none
  let unique_dir2 :=
    if include_unique_dir2 then
      some ((map2.filter (fun kv => decide (kv.1 ∉ keys1))).flatMap Prod.snd)
    else none
  (intersection, unique_dir1, unique_dir2)

/-- Embedding of compute_file_hash_and_insert_path (src/util.rs lines
99-113): hash the file at path (error propagates), rewrite the path relative
to the base directory when one is given, falling back to the unmodified path
when the base is not a prefix of it, and push the final path under the hash. -/
def compute_file_hash_and_insert_path (h : Path → Option Digest)
    (map : HMap Digest Path) (path : Path) (base : Option Path) :
    Except Unit (HMap Digest Path) :=
  match h path with
  | none => Except.error ()
  | some hash =>
    let final_path :=
      match base with
      | some base_dir =>
        if base_dir.isPrefixOf path then path.drop base_dir.length else path
      | none => path
    Except.ok (HMap.insertPush map hash final_path)

/-- A message received by a worker from one of the two channels. -/
inductive Msg : Type where
  | fromLeft (p : Path)
  | fromRight (p : Path)
deriving DecidableEq

/-- The path carried by a message. -/
def Msg.path : Msg → Path
  | Msg.fromLeft p => p
  | Msg.fromRight p => p

/-- The view one worker has of a run of the select loop: the messages it processes
before it first observes a closed channel, which channel it observed closed
(rightClosedFirst is true when recv(r2) returned Err while r1 was still
open), and the messages it then drains from the still-open channel (paths
from r1 when rightClosedFirst, from r2 otherwise). Quantifying over all
schedules covers every interleaving the crossbeam select can produce. -/
structure Schedule : Type where
  pre : List Msg
  rightClosedFirst : Bool
  drain : List Path
deriving DecidableEq

/-- All paths a worker receives under a schedule. -/
def Schedule.paths (s : Schedule) : List Path :=
  s.pre.map Msg.path ++ s.drain

/-- The select-loop phase of worker (src/lib.rs lines 136-169) before a
closure is observed: a left message is hashed and pushed into map1, a right
message into map2; a hashing error aborts the worker. -/
def workerLoop (h : Path → Option Digest) :
    List Msg → HMap Digest Path → HMap Digest Path →
    Except Unit (HMap Digest Path × HMap Digest Path)
  | [], map1, map2 => Except.ok (map1, map2)
  | Msg.fromLeft p :: rest, map1, map2 =>
    match h p with
    | none => Except.error ()
    | some hash => workerLoop h rest (HMap.insertPush map1 hash p) map2
  | Msg.fromRight p :: rest, map1, map2 =>
    match h p with
    | none => Except.error ()
    | some hash => workerLoop h rest map1 (HMap.insertPush map2 hash p)

/-- The drain loop of worker (src/lib.rs lines 146-149 and 161-164): hash
each remaining path and push it into the given map. -/
def drainInto (h : Path → Option Digest) :
    HMap Digest Path → List Path → Except Unit (HMap Digest Path)
  | map, [] => Except.ok map
  | map, p :: rest =>
    match h p with
    | none => Except.error ()
    | some hash => drainInto h (HMap.insertPush map hash p) rest

/-- Embedding of worker (src/lib.rs lines 129-173). After the select loop,
when r1 is observed closed the remaining r2 paths are drained into map2
(lines 144-151); when r2 is observed closed the remaining r1 paths are also
drained into map2 (lines 160-166). -/
def worker (h : Path → Option Digest) (s : Schedule) :
    Except Unit (HMap Digest Path × HMap Digest Path) :=
  match workerLoop h s.pre [] [] with
  | Except.error e => Except.error e
  | Except.ok (map1, map2) =>
    if s.rightClosedFirst then
      -- recv(r2) returned Err: the code iterates r1 but pushes into map2.
      match drainInto h map2 s.drain with
      | Except.error e => Except.error e
      | Except.ok map2d => Except.ok (map1, map2d)
    else
      -- recv(r1) returned Err: the code drains r2 into map2.
      match drainInto h map2 s.drain with
      | Except.error e => Except.error e
      | Except.ok map2d => Except.ok (map1, map2d)

/-- The select-loop phase of group_files_by_hash
(src/compare_two_directories.rs lines 101-124) before a closure is observed:
left messages are recorded into map1 with base1, right messages into map2
with base2, via compute_file_hash_and_insert_path. -/
def groupLoop (h : Path → Option Digest) (base1 base2 : Option Path) :
    List Msg → HMap Digest Path → HMap Digest Path →
    Except Unit (HMap Digest Path × HMap Digest Path)
  | [], map1, map2 => Except.ok (map1, map2)
  | Msg.fromLeft p :: rest, map1, map2 =>
    match compute_file_hash_and_insert_path h map1 p base1 with
    | Except.error e => Except.error e
    | Except.ok map1i => groupLoop h base1 base2 rest map1i map2
  | Msg.fromRight p :: rest, map1, map2 =>
    match compute_file_hash_and_insert_path h map2 p base2 with
    | Except.error e => Except.error e
    | Except.ok map2i => groupLoop h base1 base2 rest map1 map2i

/-- The drain loop of group_files_by_hash (lines 107-109 and 117-119):
record each remaining path into the given map with the given base. -/
def groupDrain (h : Path → Option Digest) (base : Option Path) :
    HMap Digest Path → List Path → Except Unit (HMap Digest Path)
  | map, [] => Except.ok map
  | map, p :: rest =>
    match compute_file_hash_and_insert_path h map p base with
    | Except.error e => Except.error e
    | Except.ok mapi => groupDrain h base mapi rest

/-- Embedding of group_files_by_hash (src/compare_two_directories.rs lines
92-127). When r1 is observed closed the remaining r2 paths are drained into
map2 with base2; when r2 is observed closed the remaining r1 paths are
drained into map1 with base1. -/
def group_files_by_hash (h : Path → Option Digest) (base1 base2 : Option Path)
    (s : Schedule) : Except Unit (HMap Digest Path × HMap Digest Path) :=
  match groupLoop h base1 base2 s.pre [] [] with
  | Except.error e => Except.error e
  | Except.ok (map1, map2) =>
    if s.rightClosedFirst then
      match groupDrain h base1 map1 s.drain with
      | Except.error e => Except.error e
      | Except.ok map1d => Except.ok (map1d, map2)
    else
      match groupDrain h base2 map2 s.drain with
      | Except.error e => Except.error e
      | Except.ok map2d => Except.ok (map1, map2d)

/-- The merge of one worker map into a combined map
(src/compare_two_directories.rs lines 225-230): for each binding, extend the
combined list for that key. -/
def merge_worker_map {K V : Type} [DecidableEq K]
    (combined : HMap K V) (m : HMap K V) : HMap K V :=
  m.foldl (fun acc kv => HMap.extendEntry acc kv.1 kv.2) combined

/-- The join-and-combine loop over all worker maps for one side
(src/compare_two_directories.rs lines 219-231), starting from the empty
combined map. -/
def combine_all {K V : Type} [DecidableEq K] (maps : List (HMap K V)) : HMap K V :=
  maps.foldl merge_worker_map []

/-- Single-threaded grouping of a list of paths by digest: each path is
pushed under its own digest, in order. This is exactly the per-side map one
worker builds from the paths it receives, and also the mapping a
single-threaded run over all of a side would produce. -/
def single_threaded_grouping (h : Path → Digest) (ps : List Path) : HMap Digest Path :=
  ps.foldl (fun m p => HMap.insertPush m (h p) p) []

/-- Model of Vec sort on paths (src/compare_two_directories.rs lines
244-254): sort by the total lexicographic order on paths. -/
def sortPaths (l : List Path) : List Path :=
  List.insertionSort (fun a b => a ≤ b) l

/-- The partition-then-sort tail of compare_two_directories (lines 234-256):
partition the two combined maps, then sort each requested slot. -/
def sorted_partition (map1 map2 : HMap Digest Path)
    (include_intersection include_unique_dir1 include_unique_dir2 : Bool) :
    Option (List Path) × Option (List Path) × Option (List Path) :=
  let r := partition_map_values map1 map2
    include_intersection include_unique_dir1 include_unique_dir2
  (r.1.map sortPaths, r.2.1.map sortPaths, r.2.2.map sortPaths)

/-- The join loop of compare_two_directories (lines 222-223): joining a
worker whose result is an error makes the whole call fail (the source
unwraps the worker result, so the comparison never continues past a failed
worker and returns nothing). -/
def collect_workers :
    List (Except Unit (HMap Digest Path × HMap Digest Path)) →
    Except Unit (List (HMap Digest Path × HMap Digest Path))
  | [] => Except.ok []
  | r :: rest =>
    match r with
    | Except.error e => Except.error e
    | Except.ok x =>
      match collect_workers rest with
      | Except.error e => Except.error e
      | Except.ok xs => Except.ok (x :: xs)

/-- Embedding of compare_two_directories (src/compare_two_directories.rs
lines 165-257) from the point where the worker schedules are fixed: run
every worker on its schedule, join them (a failed worker fails the whole
comparison), combine the per-worker maps per side, partition, and sort when
requested. -/
def compare_two_directories (h : Path → Option Digest) (relative : Bool)
    (dir1 dir2 : Path) (scheds : List Schedule)
    (sort include_intersection include_unique_dir1 include_unique_dir2 : Bool) :
    Except Unit (Option (List Path) × Option (List Path) × Option (List Path)) :=
  let base1 : Option Path := if relative then some dir1 else none
  let base2 : Option Path := if relative then some dir2 else none
  match collect_workers (scheds.map (group_files_by_hash h base1 base2)) with
  | Except.error e => Except.error e
  | Except.ok results =>
    let combined1 := combine_all (results.map Prod.fst)
    let combined2 := combine_all (results.map Prod.snd)
    let r := partition_map_values combined1 combined2
      include_intersection include_unique_dir1 include_unique_dir2
    if sort then
      Except.ok (r.1.map sortPaths, r.2.1.map sortPaths, r.2.2.map sortPaths)
    else
      Except.ok r

/-- A file or directory name as the walker sees it: its raw bytes, and the
result of OsStr to_str, namely some decoded character list when the bytes
are valid UTF-8 and none otherwise. -/
structure OsName : Type where
  bytes : List Nat
  asStr : Option (List Char)
deriving DecidableEq

/-- Embedding of is_hidden (src/util.rs lines 48-53 and src/lib.rs lines
121-127): the name decodes to a string starting with a dot; a name that does
not decode is not hidden (is_some_and in util.rs, map plus unwrap_or(false)
in lib.rs, with the same semantics). -/
def is_hidden (n : OsName) : Bool :=
  (n.asStr.map (fun s => decide (s.head? = some '.'))).getD false

/-- A filesystem tree entry: a regular file or a directory with children. -/
inductive FsEntry : Type where
  | file (name : OsName)
  | dir (name : OsName) (children : List FsEntry)

mutual

/-- Embedding of the walk in send_file_paths (src/util.rs lines 69-79):
WalkDir with filter_entry keeps an entry when not skip_hidden or not hidden;
a rejected directory is pruned with its whole subtree; surviving regular
files are emitted as their full path (list of names from the walk root). -/
def walkFiles (skip_hidden : Bool) (pre : List OsName) :
    FsEntry → List (List OsName)
  | FsEntry.file n =>
    if !skip_hidden || !is_hidden n then [pre ++ [n]] else []
  | FsEntry.dir n cs =>
    if !skip_hidden || !is_hidden n then walkForest skip_hidden (pre ++ [n]) cs
    else []

/-- Walk of the children of a directory, in order. -/
def walkForest (skip_hidden : Bool) (pre : List OsName) :
    List FsEntry → List (List OsName)
  | [] => []
  | e :: rest =>
    walkFiles skip_hidden pre e ++ walkForest skip_hidden pre rest

end

/-- Embedding of send_file_paths applied to a root entry: the sequence of
file paths sent on the channel for one tree side. -/
def send_file_paths (skip_hidden : Bool) (root : FsEntry) : List (List OsName) :=
  walkFiles skip_hidden [] root

/-- Embedding of compare_hashmaps (src/lib.rs lines 81-118): the values of
keys common to both maps (both lists emitted), the values of keys only in
map1, and the values of keys only in map2; all three always computed. -/
def compare_hashmaps {K V : Type} [DecidableEq K] (map1 map2 : HMap K V) :
    List V × List V × List V :=
  let set1 := HMap.keys map1
  let set2 := HMap.keys map2
  let intersection_keys := set1.filter (fun k => decide (k ∈ set2))
  let intersection := intersection_keys.flatMap
    (fun k => HMap.getD map1 k ++ HMap.getD map2 k)
  let only_in_a := (map1.filter (fun kv => decide (kv.1 ∉ set2))).flatMap Prod.snd
  let only_in_b := (map2.filter (fun kv => decide (kv.1 ∉ set1))).flatMap Prod.snd
  (intersection, only_in_a, only_in_b)

/-- The path rewrite of the merge loop of compare_directories (src/lib.rs
lines 242-247 and 251-257): map strip_prefix(dir) over the list with an
unwrap on each result, so one path that is not under dir aborts the whole
comparison (modelled as an error) instead of falling back. -/
def strip_all_or_abort (dir : Path) : List Path → Except Unit (List Path)
  | [] => Except.ok []
  | p :: rest =>
    if dir.isPrefixOf p then
      match strip_all_or_abort dir rest with
      | Except.error e => Except.error e
      | Except.ok ps => Except.ok (p.drop dir.length :: ps)
    else Except.error ()

/-- The merge of one worker map into a combined map in compare_directories
(src/lib.rs lines 241-249 and 251-259): when relative is set the path list
is first rewritten by strip_all_or_abort against the root of that side, then
the combined entry for the key is extended. -/
def merge_worker_map_lib (relative : Bool) (dir : Path)
    (combined : HMap Digest Path) :
    HMap Digest Path → Except Unit (HMap Digest Path)
  | [] => Except.ok combined
  | (key, vec) :: rest =>
    match (if relative then strip_all_or_abort dir vec else Except.ok vec) with
    | Except.error e => Except.error e
    | Except.ok vecr =>
      merge_worker_map_lib relative dir (HMap.extendEntry combined key vecr) rest

/-- The combine loop of compare_directories (src/lib.rs lines 238-260) over
all joined worker results, threading the two combined maps. -/
def merge_all_lib (relative : Bool) (dir1 dir2 : Path) :
    List (HMap Digest Path × HMap Digest Path) → HMap Digest Path →
    HMap Digest Path → Except Unit (HMap Digest Path × HMap Digest Path)
  | [], c1, c2 => Except.ok (c1, c2)
  | (m1, m2) :: rest, c1, c2 =>
    match merge_worker_map_lib relative dir1 c1 m1 with
    | Except.error e => Except.error e
    | Except.ok c1x =>
      match merge_worker_map_lib relative dir2 c2 m2 with
      | Except.error e => Except.error e
      | Except.ok c2x => merge_all_lib relative dir1 dir2 rest c1x c2x

/-- Embedding of compare_directories (src/lib.rs lines 180-273) from the
point where the worker schedules are fixed (the walk and skip_hidden filter
are upstream of the schedules): run every worker, join them (line 239
unwraps a worker failure), merge each worker pair into the two combined
maps with the relative rewrite of lines 241-259, partition with
compare_hashmaps and sort when requested. -/
def compare_directories (h : Path → Option Digest) (dir1 dir2 : Path)
    (scheds : List Schedule) (sort relative : Bool) :
    Except Unit (List Path × List Path × List Path) :=
  match collect_workers (scheds.map (worker h)) with
  | Except.error e => Except.error e
  | Except.ok results =>
    match merge_all_lib relative dir1 dir2 results [] [] with
    | Except.error e => Except.error e
    | Except.ok (combined1, combined2) =>
      let r := compare_hashmaps combined1 combined2
      if sort then
        Except.ok (sortPaths r.1, sortPaths r.2.1, sortPaths r.2.2)
      else
        Except.ok r

/-- Lookup in a cons whose head key is not the looked-up key. -/
theorem HMap.getD_cons_ne {K V : Type} [DecidableEq K]
    (k1 : K) (vs : List V) (t : HMap K V) (k : K) (h : ¬ k1 = k) :
    HMap.getD ((k1, vs) :: t) k = HMap.getD t k := by
  simp [HMap.getD, HMap.get?, h]

/-- Lookup in a cons whose head key is the looked-up key. -/
theorem HMap.getD_cons_self {K V : Type} [DecidableEq K]
    (k1 : K) (vs : List V) (t : HMap K V) :
    HMap.getD ((k1, vs) :: t) k1 = vs := by
  simp [HMap.getD, HMap.get?]

/-- Lookup after a push: pushing v under k0 appends v to the list at k0 and
leaves every other key unchanged. -/
theorem HMap.getD_insertPush {K V : Type} [DecidableEq K]
    (m : HMap K V) (k0 : K) (v : V) (k : K) :
    HMap.getD (HMap.insertPush m k0 v) k =
      if k0 = k then HMap.getD m k ++ [v] else HMap.getD m k := by
  induction m with
  | nil =>
    by_cases h : k0 = k <;> simp [HMap.insertPush, HMap.getD, HMap.get?, h]
  | cons kv t ih =>
    obtain ⟨k1, vs⟩ := kv
    by_cases h1 : k1 = k0
    · subst h1
      by_cases h2 : k1 = k <;>
        simp [HMap.insertPush, HMap.getD, HMap.get?, h2]
    · by_cases h2 : k1 = k
      · subst h2
        have hk : ¬ k0 = k1 := fun h => h1 h.symm
        simp [HMap.insertPush, HMap.getD, HMap.get?, h1, hk]
      · simp only [HMap.insertPush, if_neg h1]
        rw [HMap.getD_cons_ne k1 vs (HMap.insertPush t k0 v) k h2,
          HMap.getD_cons_ne k1 vs t k h2, ih]

/-- Lookup after an extend: extending at k0 appends vs to the list at k0 and
leaves every other key unchanged. -/
theorem HMap.getD_extendEntry {K V : Type} [DecidableEq K]
    (m : HMap K V) (k0 : K) (vs : List V) (k : K) :
    HMap.getD (HMap.extendEntry m k0 vs) k =
      if k0 = k then HMap.getD m k ++ vs else HMap.getD m k := by
  induction m with
  | nil =>
    by_cases h : k0 = k <;> simp [HMap.extendEntry, HMap.getD, HMap.get?, h]
  | cons kv t ih =>
    obtain ⟨k1, vs1⟩ := kv
    by_cases h1 : k1 = k0
    · subst h1
      by_cases h2 : k1 = k <;>
        simp [HMap.extendEntry, HMap.getD, HMap.get?, h2]
    · by_cases h2 : k1 = k
      · subst h2
        have hk : ¬ k0 = k1 := fun h => h1 h.symm
        simp [HMap.extendEntry, HMap.getD, HMap.get?, h1, hk]
      · simp only [HMap.extendEntry, if_neg h1]
        rw [HMap.getD_cons_ne k1 vs1 (HMap.extendEntry t k0 vs) k h2,
          HMap.getD_cons_ne k1 vs1 t k h2, ih]

/-- Claim C7: for every pair of maps and every combination of the three
include flags, each output slot of partition_map_values is some exactly when
its flag is true and none when its flag is false. -/
theorem c7_flag_gating {K V : Type} [DecidableEq K] (map1 map2 : HMap K V)
    (include_intersection include_unique_dir1 include_unique_dir2 : Bool) :
    ((partition_map_values map1 map2 include_intersection include_unique_dir1
        include_unique_dir2).1.isSome = include_intersection) ∧
    ((partition_map_values map1 map2 include_intersection include_unique_dir1
        include_unique_dir2).2.1.isSome = include_unique_dir1) ∧
    ((partition_map_values map1 map2 include_intersection include_unique_dir1
        include_unique_dir2).2.2.isSome = include_unique_dir2) := by
  cases include_intersection <;> cases include_unique_dir1 <;>
    cases include_unique_dir2 <;> simp [partition_map_values]

/-- Claim C3: a path belongs to the intersection output exactly when some
digest key is present in both maps and the path is in the list of either map
for that key; in particular all paths of both lists of a shared key are
emitted, and membership never depends on path equality across sides. -/
theorem c3_intersection_membership {K V : Type} [DecidableEq K]
    (map1 map2 : HMap K V) (include_unique_dir1 include_unique_dir2 : Bool)
    (p : V) :
    p ∈ ((partition_map_values map1 map2 true include_unique_dir1
        include_unique_dir2).1.getD []) ↔
      ∃ k, k ∈ HMap.keys map1 ∧ k ∈ HMap.keys map2 ∧
        (p ∈ HMap.getD map1 k ∨ p ∈ HMap.getD map2 k) := by
  simp only [partition_map_values, Option.getD_some, if_pos]
  simp only [List.mem_flatMap, List.mem_filter, List.mem_append,
    decide_eq_true_eq]
  constructor
  · rintro ⟨k, ⟨hk1, hk2⟩, hp⟩
    exact ⟨k, hk1, hk2, hp⟩
  · rintro ⟨k, hk1, hk2, hp⟩
    exact ⟨k, ⟨hk1, hk2⟩, hp⟩

/-- Claim C1, code evaluation at the failing schedule: the lib.rs worker,
run on the schedule where it has processed no message yet, observes the
right channel closed and drains the single remaining left-channel path [0]
(digest 7), ends with that left path recorded in map2, the right-side
mapping, and nothing in map1 — refuting that every left-channel path is
inserted into the left per-side mapping. -/
theorem c1_worker_drains_left_path_into_right_map :
    worker (fun _ => some 7) ⟨[], true, [[0]]⟩ =
      Except.ok ([], [(7, [[0]])]) := rfl

/-- The per-entry rewrite of the compare_two_directories pipeline: when a
base directory is given but is not a prefix of the path,
compute_file_hash_and_insert_path recovers locally, returning ok and
recording the unmodified absolute path under the digest of the content. -/
theorem compute_file_hash_insert_fallback (h : Path → Option Digest)
    (map : HMap Digest Path) (path base : Path) (d : Digest)
    (hh : h path = some d) (hb : base.isPrefixOf path = false) :
    compute_file_hash_and_insert_path h map path (some base) =
      Except.ok (HMap.insertPush map d path) := by
  simp [compute_file_hash_and_insert_path, hh, hb]

/-- The fallback at a concrete input: base [9] is not a prefix of path [5],
the hash is 3, and the entry is recorded under digest 3 with the absolute
path [5], with an ok result. -/
theorem compute_file_hash_insert_fallback_example :
    compute_file_hash_and_insert_path (fun _ => some 3) [] [5] (some [9]) =
      Except.ok [(3, [[5]])] :=
  (compute_file_hash_insert_fallback (fun _ => some 3) [] [5] [9] 3
    rfl (by decide)).trans rfl

/-- Claim C6, code evaluation at the failing input: in the lib.rs pipeline
with the relative option enabled, a worker that observes the right channel
closed drains the left-root path [1, 5] into map2 (the drain slip of claim
C1); the merge then rewrites the map2 paths with strip_prefix against dir2
and unwraps, which fails because [1, 5] is not under dir2 = [2]: the whole
comparison aborts with an error instead of recovering, and the entry is not
recorded anywhere — refuting local recovery for the compare_directories
pipeline of lib.rs. -/
theorem c6_rewrite_failure_aborts_lib_comparison :
    compare_directories (fun _ => some 7) [1] [2] [⟨[], true, [[1, 5]]⟩]
      false true = Except.error () := rfl

/-- Lookup in the empty map is empty. -/
theorem HMap.getD_nil {K V : Type} [DecidableEq K] (k : K) :
    HMap.getD ([] : HMap K V) k = [] := rfl

/-- The key list of a cons. -/
theorem HMap.keys_cons {K V : Type} (k1 : K) (vs : List V) (t : HMap K V) :
    HMap.keys ((k1, vs) :: t) = k1 :: HMap.keys t := rfl

/-- allAt on a cons. -/
theorem HMap.allAt_cons {K V : Type} [DecidableEq K]
    (k1 : K) (vs : List V) (t : HMap K V) (k : K) :
    HMap.allAt ((k1, vs) :: t) k =
      if k1 = k then vs ++ HMap.allAt t k else HMap.allAt t k := by
  by_cases h : k1 = k <;> simp [HMap.allAt, List.filter_cons, h]

/-- allAt at a key that is absent from the map is empty. -/
theorem HMap.allAt_eq_nil {K V : Type} [DecidableEq K]
    (m : HMap K V) (k : K) (h : k ∉ HMap.keys m) : HMap.allAt m k = [] := by
  induction m with
  | nil => rfl
  | cons kv t ih =>
    obtain ⟨k1, vs⟩ := kv
    rw [HMap.keys_cons, List.mem_cons] at h
    push_neg at h
    rw [HMap.allAt_cons, if_neg (fun he => h.1 he.symm), ih h.2]

/-- When the key list has no duplicates, allAt agrees with lookup. -/
theorem HMap.allAt_eq_getD {K V : Type} [DecidableEq K]
    (m : HMap K V) (k : K) (hn : (HMap.keys m).Nodup) :
    HMap.allAt m k = HMap.getD m k := by
  induction m with
  | nil => rfl
  | cons kv t ih =>
    obtain ⟨k1, vs⟩ := kv
    rw [HMap.keys_cons, List.nodup_cons] at hn
    by_cases h : k1 = k
    · subst h
      rw [HMap.allAt_cons, if_pos rfl, HMap.allAt_eq_nil t k1 hn.1,
        HMap.getD_cons_self, List.append_nil]
    · rw [HMap.allAt_cons, if_neg h, HMap.getD_cons_ne k1 vs t k h, ih hn.2]

/-- The key list after a push: unchanged when the key is already present,
extended by the new key at the end otherwise. -/
theorem HMap.keys_insertPush {K V : Type} [DecidableEq K]
    (m : HMap K V) (k0 : K) (v : V) :
    HMap.keys (HMap.insertPush m k0 v) =
      if k0 ∈ HMap.keys m then HMap.keys m else HMap.keys m ++ [k0] := by
  induction m with
  | nil => simp [HMap.insertPush, HMap.keys]
  | cons kv t ih =>
    obtain ⟨k1, vs⟩ := kv
    by_cases h : k1 = k0
    · subst h
      simp [HMap.insertPush, HMap.keys_cons]
    · have hne : ¬ k0 = k1 := fun he => h he.symm
      by_cases hm : k0 ∈ HMap.keys t
      · simp [HMap.insertPush, h, HMap.keys_cons, ih, hm, hne]
      · simp [HMap.insertPush, h, HMap.keys_cons, ih, hm, hne]

/-- A push preserves the no-duplicate-keys invariant. -/
theorem HMap.keys_nodup_insertPush {K V : Type} [DecidableEq K]
    (m : HMap K V) (k0 : K) (v : V) (hn : (HMap.keys m).Nodup) :
    (HMap.keys (HMap.insertPush m k0 v)).Nodup := by
  rw [HMap.keys_insertPush]
  by_cases h : k0 ∈ HMap.keys m
  · rwa [if_pos h]
  · rw [if_neg h, List.nodup_append]
    exact ⟨hn, List.nodup_singleton k0, by
      intro a ha hb
      rw [List.mem_singleton] at hb
      exact h (hb ▸ ha)⟩

/-- Lookup in the map built by folding pushes over a path list: the paths of
the list whose digest is the key, appended after whatever was there. -/
theorem getD_foldl_insertPush (h : Path → Digest) (ps : List Path)
    (m : HMap Digest Path) (k : Digest) :
    HMap.getD (ps.foldl (fun m p => HMap.insertPush m (h p) p) m) k =
      HMap.getD m k ++ ps.filter (fun p => decide (h p = k)) := by
  induction ps generalizing m with
  | nil => simp
  | cons p rest ih =>
    rw [List.foldl_cons, ih, HMap.getD_insertPush, List.filter_cons]
    by_cases hc : h p = k
    · simp [hc]
    · simp [hc]

/-- The map built by folding pushes has no duplicate keys. -/
theorem keys_nodup_foldl_insertPush (h : Path → Digest) (ps : List Path)
    (m : HMap Digest Path) (hn : (HMap.keys m).Nodup) :
    (HMap.keys (ps.foldl (fun m p => HMap.insertPush m (h p) p) m)).Nodup := by
  induction ps generalizing m with
  | nil => exact hn
  | cons p rest ih =>
    exact ih _ (HMap.keys_nodup_insertPush m (h p) p hn)

/-- Merging one worker map appends, at every key, the contribution of that map
after the accumulated combined list. -/
theorem getD_merge_worker_map {K V : Type} [DecidableEq K]
    (m acc : HMap K V) (k : K) :
    HMap.getD (merge_worker_map acc m) k =
      HMap.getD acc k ++ HMap.allAt m k := by
  induction m generalizing acc with
  | nil => simp [merge_worker_map, HMap.allAt]
  | cons kv t ih =>
    obtain ⟨k1, vs⟩ := kv
    rw [merge_worker_map, List.foldl_cons]
    have : (t.foldl (fun acc kv => HMap.extendEntry acc kv.1 kv.2)
        (HMap.extendEntry acc k1 vs)) = merge_worker_map (HMap.extendEntry acc k1 vs) t := rfl
    rw [this, ih, HMap.getD_extendEntry, HMap.allAt_cons]
    by_cases hc : k1 = k
    · simp [hc, List.append_assoc]
    · simp [hc]

/-- Lookup in the combined map of a list of worker maps: the concatenation,
worker by worker, of the contribution of each worker at that key. -/
theorem getD_foldl_merge {K V : Type} [DecidableEq K]
    (maps : List (HMap K V)) (acc : HMap K V) (k : K) :
    HMap.getD (maps.foldl merge_worker_map acc) k =
      HMap.getD acc k ++ (maps.map (fun m => HMap.allAt m k)).flatten := by
  induction maps generalizing acc with
  | nil => simp
  | cons m rest ih =>
    rw [List.foldl_cons, ih, getD_merge_worker_map, List.map_cons,
      List.flatten_cons, List.append_assoc]

/-- Claim C4: for every partition of the paths of one side among the workers,
merging the per-worker mappings by extending the combined list per digest
yields, at every digest key, exactly (as a multiset) the path list that
single-threaded processing of all the paths of that side would produce. -/
theorem c4_merge_equals_single_threaded (h : Path → Digest)
    (parts : List (List Path)) (k : Digest) :
    (HMap.getD (combine_all (parts.map (single_threaded_grouping h))) k).Perm
      (HMap.getD (single_threaded_grouping h parts.flatten) k) := by
  have lhs : HMap.getD (combine_all (parts.map (single_threaded_grouping h))) k
      = (parts.map (fun part => part.filter (fun p => decide (h p = k)))).flatten := by
    rw [combine_all, getD_foldl_merge, HMap.getD_nil, List.nil_append,
      List.map_map]
    congr 1
    apply List.map_congr_left
    intro part _
    rw [Function.comp_apply, single_threaded_grouping,
      HMap.allAt_eq_getD _ _
        (keys_nodup_foldl_insertPush h part [] List.nodup_nil),
      getD_foldl_insertPush, HMap.getD_nil, List.nil_append]
  rw [lhs, single_threaded_grouping, getD_foldl_insertPush, HMap.getD_nil,
    List.nil_append, List.filter_flatten]

/-- A hashing failure makes compute_file_hash_and_insert_path fail. -/
theorem compute_error_of_hash_none (h : Path → Option Digest)
    (m : HMap Digest Path) (p : Path) (b : Option Path) (hp : h p = none) :
    compute_file_hash_and_insert_path h m p b = Except.error () := by
  simp [compute_file_hash_and_insert_path, hp]

/-- A worker whose select-loop phase contains a message with an unreadable
path aborts with an error, whatever its accumulated maps are. -/
theorem groupLoop_error (h : Path → Option Digest) (base1 base2 : Option Path)
    (q : Msg) (msgs : List Msg) (hq : q ∈ msgs) (hf : h q.path = none) :
    ∀ m1 m2, groupLoop h base1 base2 msgs m1 m2 = Except.error () := by
  induction msgs with
  | nil => cases hq
  | cons msg rest ih =>
    intro m1 m2
    rcases List.mem_cons.mp hq with he | ht
    · subst he
      cases q with
      | fromLeft p =>
        simp [groupLoop, compute_error_of_hash_none h m1 p base1 hf]
      | fromRight p =>
        simp [groupLoop, compute_error_of_hash_none h m2 p base2 hf]
    · cases msg with
      | fromLeft p =>
        cases hco : compute_file_hash_and_insert_path h m1 p base1 with
        | error e => cases e; simp [groupLoop, hco]
        | ok m1i => simp [groupLoop, hco, ih ht]
      | fromRight p =>
        cases hco : compute_file_hash_and_insert_path h m2 p base2 with
        | error e => cases e; simp [groupLoop, hco]
        | ok m2i => simp [groupLoop, hco, ih ht]

/-- A worker whose drain phase contains an unreadable path aborts with an
error. -/
theorem groupDrain_error (h : Path → Option Digest) (base : Option Path)
    (p : Path) (ps : List Path) (hp : p ∈ ps) (hf : h p = none) :
    ∀ m, groupDrain h base m ps = Except.error () := by
  induction ps with
  | nil => cases hp
  | cons p0 rest ih =>
    intro m
    rcases List.mem_cons.mp hp with he | ht
    · subst he
      simp [groupDrain, compute_error_of_hash_none h m p base hf]
    · cases hco : compute_file_hash_and_insert_path h m p0 base with
      | error e => cases e; simp [groupDrain, hco]
      | ok mi => simp [groupDrain, hco, ih ht]

/-- A worker that receives an unreadable path anywhere in its schedule
returns an error and hence no mapping pair at all. -/
theorem group_files_by_hash_error (h : Path → Option Digest)
    (base1 base2 : Option Path) (s : Schedule) (p : Path)
    (hp : p ∈ s.paths) (hf : h p = none) :
    group_files_by_hash h base1 base2 s = Except.error () := by
  have hp2 : (∃ a ∈ s.pre, a.path = p) ∨ p ∈ s.drain := by
    simpa [Schedule.paths] using hp
  rcases hp2 with ⟨q, hq, hqp⟩ | hdr
  · have hl := groupLoop_error h base1 base2 q s.pre hq (by rw [hqp]; exact hf)
    simp [group_files_by_hash, hl]
  · cases hgl : groupLoop h base1 base2 s.pre [] [] with
    | error e => cases e; simp [group_files_by_hash, hgl]
    | ok pr =>
      obtain ⟨m1, m2⟩ := pr
      have hd1 := groupDrain_error h base1 p s.drain hdr hf m1
      have hd2 := groupDrain_error h base2 p s.drain hdr hf m2
      by_cases hrc : s.rightClosedFirst <;>
        simp [group_files_by_hash, hgl, hrc, hd1, hd2]

/-- Joining the workers fails as soon as one worker result is an error. -/
theorem collect_workers_error
    (rs : List (Except Unit (HMap Digest Path × HMap Digest Path)))
    (hr : Except.error () ∈ rs) : collect_workers rs = Except.error () := by
  induction rs with
  | nil => cases hr
  | cons r rest ih =>
    rcases List.mem_cons.mp hr with he | ht
    · rw [← he]
      simp [collect_workers]
    · cases r with
      | error e => cases e; simp [collect_workers]
      | ok x => simp [collect_workers, ih ht]

/-- Claim C5: a digest read error on any single file received by any worker
is fatal: the whole comparison returns an error, and none of the three
output slots is produced. -/
theorem c5_digest_error_aborts_comparison (h : Path → Option Digest)
    (relative : Bool) (dir1 dir2 : Path) (scheds : List Schedule)
    (sort include_intersection include_unique_dir1 include_unique_dir2 : Bool)
    (s : Schedule) (p : Path) (hs : s ∈ scheds) (hp : p ∈ s.paths)
    (hf : h p = none) :
    compare_two_directories h relative dir1 dir2 scheds sort
      include_intersection include_unique_dir1 include_unique_dir2 =
      Except.error () := by
  have hw : group_files_by_hash h (if relative then some dir1 else none)
      (if relative then some dir2 else none) s = Except.error () :=
    group_files_by_hash_error _ _ _ s p hp hf
  have hmem : Except.error () ∈ scheds.map
      (group_files_by_hash h (if relative then some dir1 else none)
        (if relative then some dir2 else none)) :=
    List.mem_map.mpr ⟨s, hs, hw⟩
  have hc := collect_workers_error _ hmem
  simp [compare_two_directories, hc]

/-- Witness for claim C5 at a concrete input: one worker, whose schedule
drains the single path [0]; the hash function fails on every path; the
comparison returns an error. -/
theorem c5_digest_error_witness :
    (⟨[], false, [[0]]⟩ : Schedule) ∈ [(⟨[], false, [[0]]⟩ : Schedule)] ∧
    ([0] : Path) ∈ (⟨[], false, [[0]]⟩ : Schedule).paths ∧
    compare_two_directories (fun _ => none) true [7] [8]
      [⟨[], false, [[0]]⟩] true true true true = Except.error () :=
  ⟨List.mem_singleton.mpr rfl, by decide,
    c5_digest_error_aborts_comparison (fun _ => none) true [7] [8]
      [⟨[], false, [[0]]⟩] true true true true ⟨[], false, [[0]]⟩ [0]
      (List.mem_singleton.mpr rfl) (by decide) rfl⟩

mutual

/-- With skip_hidden enabled, every component of every path emitted by the
walk of an entry is non-hidden, provided the accumulated prefix components
are non-hidden. -/
theorem walkFiles_no_hidden :
    ∀ (pre : List OsName) (t : FsEntry) (p : List OsName) (c : OsName),
      (∀ x ∈ pre, is_hidden x = false) →
      p ∈ walkFiles true pre t → c ∈ p → is_hidden c = false
  | pre, FsEntry.file n, p, c, hpre, hp, hc => by
    by_cases hn : is_hidden n
    · simp [walkFiles, hn] at hp
    · simp [walkFiles, hn] at hp
      subst hp
      rcases List.mem_append.mp hc with h1 | h2
      · exact hpre c h1
      · rw [List.mem_singleton] at h2
        subst h2
        simpa using hn
  | pre, FsEntry.dir n cs, p, c, hpre, hp, hc => by
    by_cases hn : is_hidden n
    · simp [walkFiles, hn] at hp
    · simp only [walkFiles, hn, Bool.not_true, Bool.not_false,
        Bool.false_or, Bool.or_true, if_true, ite_true] at hp
      refine walkForest_no_hidden (pre ++ [n]) cs p c ?_ (by simpa using hp) hc
      intro x hx
      rcases List.mem_append.mp hx with h1 | h2
      · exact hpre x h1
      · rw [List.mem_singleton] at h2
        subst h2
        simpa using hn

/-- With skip_hidden enabled, every component of every path emitted by the
walk of a forest is non-hidden, provided the accumulated prefix components
are non-hidden. -/
theorem walkForest_no_hidden :
    ∀ (pre : List OsName) (ts : List FsEntry) (p : List OsName) (c : OsName),
      (∀ x ∈ pre, is_hidden x = false) →
      p ∈ walkForest true pre ts → c ∈ p → is_hidden c = false
  | _, [], _, _, _, hp, _ => by cases hp
  | pre, e :: rest, p, c, hpre, hp, hc => by
    rcases List.mem_append.mp (by simpa [walkForest] using hp) with h1 | h2
    · exact walkFiles_no_hidden pre e p c hpre h1 hc
    · exact walkForest_no_hidden pre rest p c hpre h2 hc

end

/-- Claim C8: with skip_hidden enabled, no component of any path produced by
send_file_paths is hidden; in particular a hidden file is never emitted and
nothing underneath a hidden directory is emitted (any such path would carry
the hidden name as one of its components). -/
theorem c8_hidden_exclusion_recursive (root : FsEntry) (p : List OsName)
    (c : OsName) (hp : p ∈ send_file_paths true root) (hc : c ∈ p) :
    is_hidden c = false :=
  walkFiles_no_hidden [] root p c (fun x hx => absurd hx (List.not_mem_nil x))
    hp hc

/-- Witness for claim C8 at a concrete input: the tree with root directory a
containing the file b emits the path [a, b], and each component of that path
is not hidden. -/
theorem c8_hidden_exclusion_witness :
    ([⟨[97], some ['a']⟩, ⟨[98], some ['b']⟩] : List OsName) ∈
      send_file_paths true
        (FsEntry.dir ⟨[97], some ['a']⟩ [FsEntry.file ⟨[98], some ['b']⟩]) ∧
    (⟨[98], some ['b']⟩ : OsName) ∈
      ([⟨[97], some ['a']⟩, ⟨[98], some ['b']⟩] : List OsName) ∧
    is_hidden ⟨[98], some ['b']⟩ = false :=
  ⟨by decide, by decide,
    c8_hidden_exclusion_recursive
      (FsEntry.dir ⟨[97], some ['a']⟩ [FsEntry.file ⟨[98], some ['b']⟩])
      [⟨[97], some ['a']⟩, ⟨[98], some ['b']⟩] ⟨[98], some ['b']⟩
      (by decide) (by decide)⟩

/-- Claim C10: a name whose byte sequence begins with the dot byte 46 but
does not decode to UTF-8 is not hidden, so even with skip_hidden enabled a
file with that name is emitted by the walker and a directory with that name
is walked rather than pruned. -/
theorem c10_invalid_utf8_never_hidden (n : OsName)
    (hb : n.bytes.head? = some 46) (hs : n.asStr = none) :
    is_hidden n = false ∧
    (∀ pre : List OsName, walkFiles true pre (FsEntry.file n) = [pre ++ [n]]) ∧
    (∀ (pre : List OsName) (cs : List FsEntry),
      walkFiles true pre (FsEntry.dir n cs) = walkForest true (pre ++ [n]) cs) := by
  have hh : is_hidden n = false := by simp [is_hidden, hs]
  refine ⟨hh, ?_, ?_⟩
  · intro pre
    simp [walkFiles, hh]
  · intro pre cs
    simp [walkFiles, hh]

/-- Witness for claim C10 at a concrete input: the byte sequence 46, 255
starts with a dot byte and does not decode; the name is not hidden and the
file carrying it is emitted. -/
theorem c10_invalid_utf8_witness :
    is_hidden ⟨[46, 255], none⟩ = false ∧
    walkFiles true [] (FsEntry.file ⟨[46, 255], none⟩) = [[⟨[46, 255], none⟩]] :=
  ⟨(c10_invalid_utf8_never_hidden ⟨[46, 255], none⟩ rfl rfl).1,
    (c10_invalid_utf8_never_hidden ⟨[46, 255], none⟩ rfl rfl).2.1 []⟩

/-- The unique-to-one-side slot, keyed form: filtering the bindings by a
predicate on the key and flattening the values equals flattening the lookups
over the filtered key list, when keys are unique. -/
theorem filter_keys_flatMap {K V : Type} [DecidableEq K]
    (m : HMap K V) (q : K → Bool) (hn : (HMap.keys m).Nodup) :
    (m.filter (fun kv => q kv.1)).flatMap Prod.snd =
      ((HMap.keys m).filter q).flatMap (fun k => HMap.getD m k) := by
  induction m with
  | nil => rfl
  | cons kv t ih =>
    obtain ⟨k1, vs⟩ := kv
    rw [HMap.keys_cons, List.nodup_cons] at hn
    have htail : ((HMap.keys t).filter q).flatMap
          (fun k => HMap.getD ((k1, vs) :: t) k)
        = ((HMap.keys t).filter q).flatMap (fun k => HMap.getD t k) := by
      rw [List.flatMap_def, List.flatMap_def]
      congr 1
      apply List.map_congr_left
      intro k hk
      have hk2 : k ∈ HMap.keys t := (List.mem_filter.mp hk).1
      exact HMap.getD_cons_ne k1 vs t k (fun he => hn.1 (by rw [he]; exact hk2))
    by_cases hq : q k1
    · simp only [List.filter_cons, hq, if_pos, HMap.keys_cons,
        List.flatMap_cons]
      rw [HMap.getD_cons_self, htail, ih hn.2]
    · simp only [List.filter_cons, hq, HMap.keys_cons, if_neg,
        Bool.false_eq_true, ite_false]
      rw [htail, ih hn.2]

/-- With unique keys, summing the per-key counts of a value over all keys
gives its count among all stored values. -/
theorem sum_count_getD {K V : Type} [DecidableEq K] [DecidableEq V]
    (m : HMap K V) (p : V) (hn : (HMap.keys m).Nodup) :
    ((HMap.keys m).map (fun k => (HMap.getD m k).count p)).sum =
      (HMap.values m).count p := by
  induction m with
  | nil => rfl
  | cons kv t ih =>
    obtain ⟨k1, vs⟩ := kv
    rw [HMap.keys_cons, List.nodup_cons] at hn
    rw [HMap.keys_cons, List.map_cons, List.sum_cons, HMap.getD_cons_self]
    have hmc : (HMap.keys t).map (fun k => (HMap.getD ((k1, vs) :: t) k).count p)
        = (HMap.keys t).map (fun k => (HMap.getD t k).count p) := by
      apply List.map_congr_left
      intro k hk
      rw [HMap.getD_cons_ne k1 vs t k (fun he => hn.1 (by rw [he]; exact hk))]
    rw [hmc, ih hn.2]
    show vs.count p + (HMap.values t).count p = (HMap.values ((k1, vs) :: t)).count p
    rw [HMap.values, HMap.values, List.flatMap_cons, List.count_append]

/-- Every value reachable by lookup is among the stored values. -/
theorem mem_values_of_mem_getD {K V : Type} [DecidableEq K]
    (m : HMap K V) (k : K) (p : V) (hp : p ∈ HMap.getD m k) :
    p ∈ HMap.values m := by
  induction m with
  | nil => simp [HMap.getD, HMap.get?] at hp
  | cons kv t ih =>
    obtain ⟨k1, vs⟩ := kv
    rw [HMap.values, List.flatMap_cons, List.mem_append]
    by_cases h : k1 = k
    · subst h
      rw [HMap.getD_cons_self] at hp
      exact Or.inl hp
    · rw [HMap.getD_cons_ne k1 vs t k h] at hp
      exact Or.inr (ih hp)

/-- A value absent from the stored values has count zero at every key. -/
theorem count_getD_eq_zero {K V : Type} [DecidableEq K] [DecidableEq V]
    (m : HMap K V) (k : K) (p : V) (hp : p ∉ HMap.values m) :
    (HMap.getD m k).count p = 0 :=
  List.count_eq_zero.mpr (fun hmem => hp (mem_values_of_mem_getD m k p hmem))

/-- Claim C2, counterexample to the claim as stated: over the mapping pair
in which the same path [0] occurs in both maps under digest 0 (as produced
by comparing a directory with itself), with all outputs requested, the path
[0] occurring in the left mapping appears twice, not exactly once, across
the intersection list and the unique-left list. -/
theorem c2_partition_completeness_counterexample :
    ((partition_map_values [((0 : Digest), [([0] : Path)])]
        [((0 : Digest), [([0] : Path)])] true true true).1.getD [] ++
      (partition_map_values [((0 : Digest), [([0] : Path)])]
        [((0 : Digest), [([0] : Path)])] true true true).2.1.getD []).count
      ([0] : Path) = 2 := by decide

/-- Claim C2, amended: for mappings with unique digest keys in which no path
occurs twice across the two sides (the invariant the worker loop and merge
establish for distinct on-disk files), every path of the left mapping
appears exactly once across the intersection list and the unique-left list
together, and every path of the right mapping exactly once across the
intersection list and the unique-right list together. -/
theorem c2_partition_completeness_amended {K V : Type} [DecidableEq K]
    [DecidableEq V] (map1 map2 : HMap K V)
    (hn1 : (HMap.keys map1).Nodup) (hn2 : (HMap.keys map2).Nodup)
    (hdis : (HMap.values map1 ++ HMap.values map2).Nodup) :
    (∀ p ∈ HMap.values map1,
      ((partition_map_values map1 map2 true true true).1.getD [] ++
        (partition_map_values map1 map2 true true true).2.1.getD []).count p = 1) ∧
    (∀ p ∈ HMap.values map2,
      ((partition_map_values map1 map2 true true true).1.getD [] ++
        (partition_map_values map1 map2 true true true).2.2.getD []).count p = 1) := by
  have hv1 : (HMap.values map1).Nodup := (List.nodup_append.mp hdis).1
  have hv2 : (HMap.values map2).Nodup := (List.nodup_append.mp hdis).2.1
  have hdj : (HMap.values map1).Disjoint (HMap.values map2) :=
    List.disjoint_of_nodup_append hdis
  have hI : (partition_map_values map1 map2 true true true).1.getD [] =
      ((HMap.keys map1).filter (fun k => decide (k ∈ HMap.keys map2))).flatMap
        (fun k => HMap.getD map1 k ++ HMap.getD map2 k) := by
    simp [partition_map_values]
  have hU1 : (partition_map_values map1 map2 true true true).2.1.getD [] =
      ((HMap.keys map1).filter (fun k => decide (k ∉ HMap.keys map2))).flatMap
        (fun k => HMap.getD map1 k) := by
    have := filter_keys_flatMap map1 (fun k => decide (k ∉ HMap.keys map2)) hn1
    simpa [partition_map_values] using this
  have hU2 : (partition_map_values map1 map2 true true true).2.2.getD [] =
      ((HMap.keys map2).filter (fun k => decide (k ∉ HMap.keys map1))).flatMap
        (fun k => HMap.getD map2 k) := by
    have := filter_keys_flatMap map2 (fun k => decide (k ∉ HMap.keys map1)) hn2
    simpa [partition_map_values] using this
  have hcI : ∀ p : V,
      ((partition_map_values map1 map2 true true true).1.getD []).count p =
      (((HMap.keys map1).filter (fun k => decide (k ∈ HMap.keys map2))).map
        (fun k => (HMap.getD map1 k).count p)).sum +
      (((HMap.keys map1).filter (fun k => decide (k ∈ HMap.keys map2))).map
        (fun k => (HMap.getD map2 k).count p)).sum := by
    intro p
    have hmc : List.map
          (List.count p ∘ fun k => HMap.getD map1 k ++ HMap.getD map2 k)
          ((HMap.keys map1).filter (fun k => decide (k ∈ HMap.keys map2)))
        = List.map
          (fun k => (HMap.getD map1 k).count p + (HMap.getD map2 k).count p)
          ((HMap.keys map1).filter (fun k => decide (k ∈ HMap.keys map2))) :=
      List.map_congr_left (fun k _ => by simp [List.count_append])
    rw [hI, List.count_flatMap, hmc, List.sum_map_add]
  have hcU : ∀ (m : HMap K V) (q : K → Bool) (p : V),
      (((HMap.keys m).filter q).flatMap (fun k => HMap.getD m k)).count p =
      (((HMap.keys m).filter q).map (fun k => (HMap.getD m k).count p)).sum := by
    intro m q p
    rw [List.count_flatMap]
    congr 1
  constructor
  · intro p hp
    have hnot2 : p ∉ HMap.values map2 := fun h2 => hdj hp h2
    have hz2 : (((HMap.keys map1).filter
        (fun k => decide (k ∈ HMap.keys map2))).map
        (fun k => (HMap.getD map2 k).count p)).sum = 0 := by
      apply List.sum_eq_zero
      intro x hx
      obtain ⟨k, _, hk⟩ := List.mem_map.mp hx
      rw [← hk]
      exact count_getD_eq_zero map2 k p hnot2
    have hsplit : (((HMap.keys map1).filter
          (fun k => decide (k ∈ HMap.keys map2))).map
          (fun k => (HMap.getD map1 k).count p)).sum +
        (((HMap.keys map1).filter
          (fun k => decide (k ∉ HMap.keys map2))).map
          (fun k => (HMap.getD map1 k).count p)).sum =
        ((HMap.keys map1).map (fun k => (HMap.getD map1 k).count p)).sum :=
      List.sum_map_filter_add_sum_map_filter_not
        (fun k => k ∈ HMap.keys map2) (fun k => (HMap.getD map1 k).count p) _
    rw [List.count_append, hcI p, hU1, hcU map1 _ p]
    rw [sum_count_getD map1 p hn1] at hsplit
    have hone : (HMap.values map1).count p = 1 :=
      List.count_eq_one_of_mem hv1 hp
    omega
  · intro p hp
    have hnot1 : p ∉ HMap.values map1 := fun h1 => hdj h1 hp
    have hz1 : (((HMap.keys map1).filter
        (fun k => decide (k ∈ HMap.keys map2))).map
        (fun k => (HMap.getD map1 k).count p)).sum = 0 := by
      apply List.sum_eq_zero
      intro x hx
      obtain ⟨k, _, hk⟩ := List.mem_map.mp hx
      rw [← hk]
      exact count_getD_eq_zero map1 k p hnot1
    have hperm : ((HMap.keys map1).filter
          (fun k => decide (k ∈ HMap.keys map2))).Perm
        ((HMap.keys map2).filter (fun k => decide (k ∈ HMap.keys map1))) := by
      rw [List.perm_ext_iff_of_nodup (hn1.filter _) (hn2.filter _)]
      intro k
      simp only [List.mem_filter, decide_eq_true_eq]
      exact and_comm
    have hpsum : (((HMap.keys map1).filter
          (fun k => decide (k ∈ HMap.keys map2))).map
          (fun k => (HMap.getD map2 k).count p)).sum =
        (((HMap.keys map2).filter
          (fun k => decide (k ∈ HMap.keys map1))).map
          (fun k => (HMap.getD map2 k).count p)).sum :=
      (hperm.map (fun k => (HMap.getD map2 k).count p)).sum_eq
    have hsplit : (((HMap.keys map2).filter
          (fun k => decide (k ∈ HMap.keys map1))).map
          (fun k => (HMap.getD map2 k).count p)).sum +
        (((HMap.keys map2).filter
          (fun k => decide (k ∉ HMap.keys map1))).map
          (fun k => (HMap.getD map2 k).count p)).sum =
        ((HMap.keys map2).map (fun k => (HMap.getD map2 k).count p)).sum :=
      List.sum_map_filter_add_sum_map_filter_not
        (fun k => k ∈ HMap.keys map1) (fun k => (HMap.getD map2 k).count p) _
    rw [List.count_append, hcI p, hU2, hcU map2 _ p]
    rw [sum_count_getD map2 p hn2] at hsplit
    have hone : (HMap.values map2).count p = 1 :=
      List.count_eq_one_of_mem hv2 hp
    omega

/-- Witness for claim C2 (amended) at a concrete input: left map with digest
0 holding path [1] and digest 1 holding path [2], right map with digest 1
holding path [3]; path [1] of the left mapping appears exactly once across
intersection plus unique-left. -/
theorem c2_partition_completeness_witness :
    ((partition_map_values [((0 : Digest), [([1] : Path)]), (1, [[2]])]
        [((1 : Digest), [([3] : Path)])] true true true).1.getD [] ++
      (partition_map_values [((0 : Digest), [([1] : Path)]), (1, [[2]])]
        [((1 : Digest), [([3] : Path)])] true true true).2.1.getD []).count
      ([1] : Path) = 1 :=
  (c2_partition_completeness_amended
    [((0 : Digest), [([1] : Path)]), (1, [[2]])]
    [((1 : Digest), [([3] : Path)])]
    (by decide) (by decide) (by decide)).1 [1] (by decide)

/-- The sort of a list of paths is sorted for the lexicographic order. -/
theorem sortPaths_sorted (l : List Path) :
    List.Sorted (fun a b : Path => a ≤ b) (sortPaths l) :=
  List.sorted_insertionSort _ l

/-- Sorting is a function of the multiset alone: permuted inputs sort to the
same list. -/
theorem sortPaths_congr (a b : List Path) (h : a.Perm b) :
    sortPaths a = sortPaths b :=
  List.eq_of_perm_of_sorted
    (((List.perm_insertionSort _ a).trans h).trans
      (List.perm_insertionSort _ b).symm)
    (sortPaths_sorted a) (sortPaths_sorted b)

/-- Claim C9: with sorting enabled, each requested output slot of the
partition-then-sort stage is sorted by the total lexicographic order on
paths, and the result is a deterministic function of the underlying
mappings alone: two combined maps that differ only in binding order and in
the order of the paths within each digest (the only variation worker
distribution and hash-map iteration can introduce) give identical output. -/
theorem c9_sorted_output_deterministic
    (m1 m2 m1' m2' : HMap Digest Path)
    (include_intersection include_unique_dir1 include_unique_dir2 : Bool)
    (hn1 : (HMap.keys m1).Nodup) (hn2 : (HMap.keys m2).Nodup)
    (hk1 : (HMap.keys m1).Perm (HMap.keys m1'))
    (hk2 : (HMap.keys m2).Perm (HMap.keys m2'))
    (hv1 : ∀ k, (HMap.getD m1 k).Perm (HMap.getD m1' k))
    (hv2 : ∀ k, (HMap.getD m2 k).Perm (HMap.getD m2' k)) :
    sorted_partition m1 m2 include_intersection include_unique_dir1
        include_unique_dir2 =
      sorted_partition m1' m2' include_intersection include_unique_dir1
        include_unique_dir2 ∧
    (∀ l, (sorted_partition m1 m2 include_intersection include_unique_dir1
        include_unique_dir2).1 = some l →
      List.Sorted (fun a b : Path => a ≤ b) l) ∧
    (∀ l, (sorted_partition m1 m2 include_intersection include_unique_dir1
        include_unique_dir2).2.1 = some l →
      List.Sorted (fun a b : Path => a ≤ b) l) ∧
    (∀ l, (sorted_partition m1 m2 include_intersection include_unique_dir1
        include_unique_dir2).2.2 = some l →
      List.Sorted (fun a b : Path => a ≤ b) l) := by
  have hn1' : (HMap.keys m1').Nodup := hn1.perm hk1
  have hn2' : (HMap.keys m2').Nodup := hn2.perm hk2
  have hkf : ((HMap.keys m1).filter (fun k => decide (k ∈ HMap.keys m2))).Perm
      ((HMap.keys m1').filter (fun k => decide (k ∈ HMap.keys m2'))) := by
    rw [List.perm_ext_iff_of_nodup (hn1.filter _) (hn1'.filter _)]
    intro k
    simp only [List.mem_filter, decide_eq_true_eq]
    exact and_congr hk1.mem_iff hk2.mem_iff
  have hinter :
      (((HMap.keys m1).filter (fun k => decide (k ∈ HMap.keys m2))).flatMap
        (fun k => HMap.getD m1 k ++ HMap.getD m2 k)).Perm
      (((HMap.keys m1').filter (fun k => decide (k ∈ HMap.keys m2'))).flatMap
        (fun k => HMap.getD m1' k ++ HMap.getD m2' k)) :=
    (List.Perm.flatMap_left _ (fun k _ => (hv1 k).append (hv2 k))).trans
      (hkf.flatMap_right _)
  have hku1 : ((HMap.keys m1).filter (fun k => decide (k ∉ HMap.keys m2))).Perm
      ((HMap.keys m1').filter (fun k => decide (k ∉ HMap.keys m2'))) := by
    rw [List.perm_ext_iff_of_nodup (hn1.filter _) (hn1'.filter _)]
    intro k
    simp only [List.mem_filter, decide_eq_true_eq]
    exact and_congr hk1.mem_iff (not_congr hk2.mem_iff)
  have hku2 : ((HMap.keys m2).filter (fun k => decide (k ∉ HMap.keys m1))).Perm
      ((HMap.keys m2').filter (fun k => decide (k ∉ HMap.keys m1'))) := by
    rw [List.perm_ext_iff_of_nodup (hn2.filter _) (hn2'.filter _)]
    intro k
    simp only [List.mem_filter, decide_eq_true_eq]
    exact and_congr hk2.mem_iff (not_congr hk1.mem_iff)
  have hu1 : ((m1.filter (fun kv => decide (kv.1 ∉ HMap.keys m2))).flatMap
        Prod.snd).Perm
      ((m1'.filter (fun kv => decide (kv.1 ∉ HMap.keys m2'))).flatMap
        Prod.snd) := by
    rw [filter_keys_flatMap m1 (fun k => decide (k ∉ HMap.keys m2)) hn1,
      filter_keys_flatMap m1' (fun k => decide (k ∉ HMap.keys m2')) hn1']
    exact (List.Perm.flatMap_left _ (fun k _ => hv1 k)).trans
      (hku1.flatMap_right _)
  have hu2 : ((m2.filter (fun kv => decide (kv.1 ∉ HMap.keys m1))).flatMap
        Prod.snd).Perm
      ((m2'.filter (fun kv => decide (kv.1 ∉ HMap.keys m1'))).flatMap
        Prod.snd) := by
    rw [filter_keys_flatMap m2 (fun k => decide (k ∉ HMap.keys m1)) hn2,
      filter_keys_flatMap m2' (fun k => decide (k ∉ HMap.keys m1')) hn2']
    exact (List.Perm.flatMap_left _ (fun k _ => hv2 k)).trans
      (hku2.flatMap_right _)
  have hu1n := hu1
  have hu2n := hu2
  simp only [decide_not] at hu1n hu2n
  refine ⟨?_, ?_, ?_, ?_⟩
  · cases include_intersection <;> cases include_unique_dir1 <;>
      cases include_unique_dir2 <;>
      simp [sorted_partition, partition_map_values,
        sortPaths_congr _ _ hinter, sortPaths_congr _ _ hu1n,
        sortPaths_congr _ _ hu2n]
  · intro l hl
    simp only [sorted_partition] at hl
    obtain ⟨x, _, hx2⟩ := Option.map_eq_some'.mp hl
    rw [← hx2]
    exact sortPaths_sorted x
  · intro l hl
    simp only [sorted_partition] at hl
    obtain ⟨x, _, hx2⟩ := Option.map_eq_some'.mp hl
    rw [← hx2]
    exact sortPaths_sorted x
  · intro l hl
    simp only [sorted_partition] at hl
    obtain ⟨x, _, hx2⟩ := Option.map_eq_some'.mp hl
    rw [← hx2]
    exact sortPaths_sorted x

/-- Witness for claim C9 at a concrete input: combined maps with one digest
holding the unsorted path pair [2], [1]; the two (here identical) runs
produce identical output and each slot of the output is sorted. -/
theorem c9_sorted_output_witness :
    sorted_partition [((0 : Digest), [([2] : Path), [1]])] []
        true true true =
      sorted_partition [((0 : Digest), [([2] : Path), [1]])] []
        true true true ∧
    (∀ l, (sorted_partition [((0 : Digest), [([2] : Path), [1]])] []
        true true true).1 = some l →
      List.Sorted (fun a b : Path => a ≤ b) l) ∧
    (∀ l, (sorted_partition [((0 : Digest), [([2] : Path), [1]])] []
        true true true).2.1 = some l →
      List.Sorted (fun a b : Path => a ≤ b) l) ∧
    (∀ l, (sorted_partition [((0 : Digest), [([2] : Path), [1]])] []
        true true true).2.2 = some l →
      List.Sorted (fun a b : Path => a ≤ b) l) :=
  c9_sorted_output_deterministic
    [((0 : Digest), [([2] : Path), [1]])] []
    [((0 : Digest), [([2] : Path), [1]])] []
    true true true (by decide) (by decide)
    (List.Perm.refl _) (List.Perm.refl _)
    (fun k => List.Perm.refl _) (fun k => List.Perm.refl _)

end Filematch
